import Mathlib

/-!
Shallow embedding of `getMultiPrimerSet/getMultiPrimerSet.py` (PrimerJinn).

The script designs PCR primers per target region (via the external service
`primer3.bindings.designPrimers`), pools the candidate pairs, enumerates
cross-region combinations, scores each combination by heterodimer free
energy and pool-wide Tm/size spread, and folds the scored stream into a
single retained best combination.

Modelling conventions:
* Python floats and ints entering score arithmetic are embedded as `ℚ`
  (the claims under study concern comparison/selection logic and exact
  aggregate formulas, not floating-point rounding).
* The external thermodynamics routine `primer3.calcHeterodimer(a, b,
  temp_c=target_tm).dg` is abstracted as a parameter `dg : String →
  String → ℚ` (the target temperature is folded into `dg`).
* The external design service response (the `primers` dict returned by
  `designPrimers`) is abstracted as `P3Result`; a missing key is `none`
  (a lookup of a missing key raises `KeyError` in Python).
* A service call that raises is an `Except.error`; Python exceptions in
  general are modelled with `Except`/`Option`.
* `np.mean` is sum / length; `np.min` / `np.max` raise on an empty list,
  modelled by `npMin` / `npMax` returning `Option`.
-/

/-- A candidate primer pair, one element of the dicts built at
lines 110–117 of the script (keys `'Forward Primer'`, `'Reverse Primer'`,
`'Forward tm'`, `'Reverse tm'`, `'Product Size'`, `'name'`). -/
structure Candidate where
  forwardPrimer : String
  reversePrimer : String
  forwardTm : ℚ
  reverseTm : ℚ
  productSize : ℚ
  name : String
deriving DecidableEq

instance : Inhabited Candidate := ⟨⟨"", "", 0, 0, 0, ""⟩⟩

/-- The dict returned by `primer3.bindings.designPrimers`: the keys the
script reads. `pairNumReturned` is `PRIMER_PAIR_NUM_RETURNED`;
`leftSequence i` is `PRIMER_LEFT_{i}_SEQUENCE`; `rightSequence i` is
`PRIMER_RIGHT_{i}_SEQUENCE`; `leftTm i` is `PRIMER_LEFT_{i}_TM`;
`rightTm i` is `PRIMER_RIGHT_{i}_TM`; `pairProductSize i` is
`PRIMER_PAIR_{i}_PRODUCT_SIZE`. `none` means the key is absent (reading
it raises `KeyError`). -/
structure P3Result where
  pairNumReturned : Option Nat
  leftSequence : Nat → Option String
  rightSequence : Nat → Option String
  leftTm : Nat → Option ℚ
  rightTm : Nat → Option ℚ
  pairProductSize : Nat → Option ℚ

/-- The extraction loop of `design_primers` (script lines 101–117):
`for i in range(n)` starting at index `i`, with `rem` iterations left.
Each iteration reads the left/right sequence, the *right* Tm into
`'Forward tm'`, the *left* Tm into `'Reverse tm'` (lines 104–105), and
the product size.  A missing key raises `KeyError`; the `except` at line
118 catches it, prints, and the function returns the pairs appended so
far — modelled by truncating the list at the first failing lookup. -/
def extractFrom (p : P3Result) (nm : String) : Nat → Nat → List Candidate
  | _, 0 => []
  | i, rem + 1 =>
    match p.leftSequence i, p.rightSequence i, p.rightTm i, p.leftTm i,
        p.pairProductSize i with
    | some fseq, some rseq, some ftm, some rtm, some ps =>
        { forwardPrimer := fseq, reversePrimer := rseq, forwardTm := ftm,
          reverseTm := rtm, productSize := ps, name := nm }
          :: extractFrom p nm (i + 1) rem
    | _, _, _, _, _ => []

/-- `design_primers` (script lines 33–121), abstracted over the service
response `svc`.  The call `primer3.bindings.designPrimers(...)` at line
92 sits *outside* the `try` block that starts at line 93, so an
exception raised by the service itself propagates out of the function;
only the result-extraction code is guarded by the `try`/`except`.
If `PRIMER_PAIR_NUM_RETURNED` is absent or zero the function returns
`[]` (lines 95–97); otherwise it extracts up to `n` pairs. -/
def design_primers (svc : Except String P3Result) (nm : String) :
    Except String (List Candidate) :=
  match svc with
  | Except.error e => Except.error e
  | Except.ok p =>
    match p.pairNumReturned with
    | none => Except.ok []
    | some 0 => Except.ok []
    | some n => Except.ok (extractFrom p nm 0 n)

/-- The score dict built by `calculate_score` (script lines 214–218):
keys `'size'`, `'tmp'`, `'mean'`, `'range'`. -/
structure Score where
  size : ℚ
  tmp : ℚ
  mean : ℚ
  range : ℚ
deriving DecidableEq

/-- `np.min` on a list of floats: raises on the empty list (`none`),
otherwise folds `min` over the elements. -/
def npMin : List ℚ → Option ℚ
  | [] => none
  | x :: xs => some (xs.foldl min x)

/-- `np.max` on a list of floats: raises on the empty list (`none`),
otherwise folds `max` over the elements. -/
def npMax : List ℚ → Option ℚ
  | [] => none
  | x :: xs => some (xs.foldl max x)

/-- `itertools.combinations(l, 2)` — all ordered-by-position pairs
`(l[i], l[j])` with `i < j`, in lexicographic order of `(i, j)`. -/
def pairsOf {α : Type} : List α → List (α × α)
  | [] => []
  | x :: xs => (xs.map fun y => (x, y)) ++ pairsOf xs

/-- The `heterodimer_scores` list of `calculate_score` (script lines
206–212): for every pair from `itertools.combinations(comb, 2)`, the
heterodimer ΔG of the first element's `'Forward Primer'` against the
second element's `'Reverse Primer'`. -/
def hets (dg : String → String → ℚ) (comb : List Candidate) : List ℚ :=
  (pairsOf comb).map fun pq => dg pq.1.forwardPrimer pq.2.reversePrimer

/-- `product_sizes` (script line 200): the `'Product Size'` of every
entry of the whole pool `primers_all`. -/
def product_sizes (pool : List Candidate) : List ℚ :=
  pool.map fun d => d.productSize

/-- `tm_values` (script line 201): the `'Forward tm'` of every pool
entry followed by the `'Reverse tm'` of every pool entry. -/
def tm_values (pool : List Candidate) : List ℚ :=
  (pool.map fun d => d.forwardTm) ++ (pool.map fun d => d.reverseTm)

/-- `calculate_score` (script lines 198–220).  `pool` is the module
global `primers_all`; `comb` is the combination argument.  `'size'` and
`'tmp'` are max − min over the *pool's* product sizes and Tm values;
`'mean'` is `np.mean(heterodimer_scores)`; `'range'` is
`abs(np.min(...)) - abs(np.max(...))`.  `none` models the exceptions
`np.min`/`np.max` raise on empty input (empty pool or fewer than two
members in `comb`). -/
def calculate_score (dg : String → String → ℚ) (pool comb : List Candidate) :
    Option Score :=
  match npMax (product_sizes pool), npMin (product_sizes pool),
      npMax (tm_values pool), npMin (tm_values pool),
      npMin (hets dg comb), npMax (hets dg comb) with
  | some psMax, some psMin, some tmMax, some tmMin, some hMin, some hMax =>
    some { size := psMax - psMin, tmp := tmMax - tmMin,
           mean := (hets dg comb).sum / ((hets dg comb).length : ℚ),
           range := |hMin| - |hMax| }
  | _, _, _, _, _, _ => none

/-- One step of the BestSelector fold (script lines 248–254), deciding
whether the candidate score `cand` replaces the current best `best`.
The literal `0.9` is embedded as `9 / 10 : ℚ`.  Line 252 reads
`best_score['tmp'] > 4 or score['tmp'] > 4 and best_score['tmp'] >
score['tmp']`; Python's `and` binds tighter than `or`, which the
disjunction below mirrors exactly. -/
def stepAccept (best cand : Score) : Bool :=
  if best.mean > cand.mean then
    if best.range * (9 / 10) > cand.range then true
    else if best.tmp > 4 ∨ (cand.tmp > 4 ∧ best.tmp > cand.tmp) then true
    else false
  else false

/-- The BestSelector fold over a stream of scored combinations, in
arrival order (script lines 245–254). -/
def bestFold (stream : List (Score × List Candidate))
    (init : Score × Option (List Candidate)) : Score × Option (List Candidate) :=
  stream.foldl
    (fun best sc => if stepAccept best.1 sc.1 then (sc.1, some sc.2) else best)
    init

/-- `itertools.combinations(l, k)`: the length-`k` subsequences of `l`
in lexicographic order over element positions. -/
def combinationsL {α : Type} : Nat → List α → List (List α)
  | 0, _ => [[]]
  | _ + 1, [] => []
  | k + 1, x :: xs =>
      ((combinationsL k xs).map fun c => x :: c) ++ combinationsL (k + 1) xs

/-- `set(entry['name'] for entry in c)`: the set of region names covered
by a combination. -/
def namesOf (c : List Candidate) : Finset String :=
  (c.map fun entry => entry.name).toFinset

/-- `combinations` (script line 229): the first `4 * eval` raw
`k`-subsets of the pool, `k` being the number of distinct names. -/
def rawCombinations (pool : List Candidate) (k evalCap : Nat) :
    List (List Candidate) :=
  (combinationsL k pool).take (4 * evalCap)

/-- The validity filter (script line 232): keep the raw combinations
whose covered name set equals `names` exactly. -/
def filteredCombinations (pool : List Candidate) (names : Finset String)
    (evalCap : Nat) : List (List Candidate) :=
  (rawCombinations pool names.card evalCap).filter fun c =>
    decide (namesOf c = names)

/-- `valid_combinations` after the second cap (script line 235): at most
`eval` filtered combinations are kept for scoring. -/
def valid_combinations (pool : List Candidate) (names : Finset String)
    (evalCap : Nat) : List (List Candidate) :=
  (filteredCombinations pool names evalCap).take evalCap

/-- A row of the region table: `start` and `end` positions (script
lines 140–141; `end` is a Lean keyword, hence `end_`). -/
structure Region where
  start : ℤ
  end_ : ℤ
deriving DecidableEq

/-- `name = 'Target ' + str(start) + "-" + str(end)` (script line 142). -/
def regionName (r : Region) : String :=
  "Target " ++ toString r.start ++ "-" ++ toString r.end_

/-- Uncaught Python exceptions that abort the run.
`nameCollision` is the `NameError` raised at script line 154: the
collision branch evaluates `random.randint(1, 100)`, but the module
never imports `random`, so reaching that branch crashes the run.
`genFailure` is an exception propagating out of `design_primers`
(whose service call is unguarded).
`targetTmUnbound` is the `NameError` raised at script line 198:
the statement `def calculate_score(comb, target_tm=target_tm)`
evaluates its default-argument expression at `def` time in module
scope, and the module never binds a bare `target_tm` (line 19 only
registers the CLI option; the loop reads `args.target_tm` at line
168), so module execution dies there. -/
inductive RunError where
  | nameCollision (nm : String)
  | genFailure (msg : String)
  | targetTmUnbound
deriving DecidableEq

/-- Result of the region iteration loop (script lines 137–180):
`calls` records the regions for which `design_primers` was invoked (in
order); `pools` is `primers_all` (one non-empty list appended per
region that yielded pairs); `broke` is the region at which the
oversized-span `break` (line 146) fired, if any; `err` is the uncaught
exception that aborted the loop, if any. -/
structure LoopOut where
  calls : List Region
  pools : List (List Candidate)
  broke : Option Region
  err : Option RunError
deriving DecidableEq

/-- The region iteration loop (script lines 137–180), abstracted over
`gen`, the per-region invocation of `design_primers` (an `Except.error`
is an exception propagating out of it).  Per row: derive the name (line
142); if `end - start > product_size_range[1]` print and `break` (lines
144–146); if the name was already seen, the dedup branch raises
`NameError` (unbound `random`, line 154); otherwise record the name,
invoke `gen`, and append a non-empty result to `primers_all` (lines
177–178). -/
def regionLoop (gen : Region → Except String (List Candidate)) (maxProd : ℤ) :
    List Region → List String → LoopOut
  | [], _ => ⟨[], [], none, none⟩
  | r :: rs, seen =>
    let nm := regionName r
    if r.end_ - r.start > maxProd then ⟨[], [], some r, none⟩
    else if nm ∈ seen then ⟨[], [], none, some (RunError.nameCollision nm)⟩
    else
      match gen r with
      | Except.error e => ⟨[r], [], none, some (RunError.genFailure e)⟩
      | Except.ok prim =>
        let rest := regionLoop gen maxProd rs (nm :: seen)
        ⟨r :: rest.calls,
         (if prim.isEmpty then [] else [prim]) ++ rest.pools,
         rest.broke, rest.err⟩

/-- How the run ends: an uncaught exception (`crashed`), the `exit(1)`
of the `len(names) <= 1` gate (script lines 223–225,
`notEnoughTargets`), or proceeding into combination enumeration with
the capped valid-combination list (lines 229–235, `proceeded`).  In
the script as written the last two are unreachable: every run that
survives the region loop raises `NameError` at line 198
(`RunError.targetTmUnbound`) before line 223 is executed.  The
constructors are retained to state that unreachability. -/
inductive Outcome where
  | crashed (e : RunError)
  | notEnoughTargets (ns : Finset String)
  | proceeded (valids : List (List Candidate))
deriving DecidableEq

/-- The run result: the regions submitted to candidate generation, and
the outcome. -/
structure RunResult where
  calls : List Region
  outcome : Outcome
deriving DecidableEq

/-- The top-level run (script lines 124–198): the region loop, the
flattening of `primers_all` and the `names` set (lines 188–195), then
the `def calculate_score(comb, target_tm=target_tm)` statement at line
198.  Python evaluates default-argument expressions at `def` time in
module scope, and the module never binds a bare `target_tm` (line 19
only registers the CLI option; the loop reads `args.target_tm`), so
every run that survives the region loop — completed or broken — dies
at line 198 with `NameError: name 'target_tm' is not defined`, before
the distinct-name gate (lines 223–225) and the combination enumeration
(lines 229–235) can run.  `evalCap` (`args.eval`) is retained in the
signature: the enumeration it would cap, `valid_combinations`, is
modelled separately above. -/
def run (gen : Region → Except String (List Candidate)) (maxProd : ℤ)
    (_evalCap : Nat) (rows : List Region) : RunResult :=
  let lo := regionLoop gen maxProd rows []
  match lo.err with
  | some e => ⟨lo.calls, Outcome.crashed e⟩
  | none => ⟨lo.calls, Outcome.crashed RunError.targetTmUnbound⟩

/-! ### Concrete fixtures used by witnesses and counterexamples -/

/-- A candidate pair owned by region name `"A"`. -/
def candA : Candidate := ⟨"ACGTACGTAC", "TTGCATTGCA", 66, 64, 500, "A"⟩

/-- A candidate pair owned by region name `"B"`. -/
def candB : Candidate := ⟨"GGCCAAGGCC", "AATTGGAATT", 67, 63, 600, "B"⟩

/-- A concrete candidate generator: one pair for a region starting at
100, one for a region starting at 300, nothing elsewhere. -/
def genW : Region → Except String (List Candidate) := fun r =>
  if r.start = 100 then Except.ok [candA]
  else if r.start = 300 then Except.ok [candB]
  else Except.ok []

/-- A generator whose service call always raises. -/
def genErr : Region → Except String (List Candidate) := fun r =>
  design_primers (Except.error "service failure") (regionName r)

/-- A current best score with Tm spread 5 (`size`, `tmp`, `mean`,
`range`). -/
def bestC1 : Score := ⟨0, 5, 10, 10⟩

/-- A candidate score with a better mean, a much worse pairwise range,
and a *larger* Tm spread 6. -/
def candC1 : Score := ⟨0, 6, 5, 20⟩

/-- A candidate score with a better mean, much worse pairwise range,
and a smaller Tm spread 3. -/
def candC1w : Score := ⟨0, 3, 5, 20⟩

/-! ### Helper lemmas -/

theorem combinationsL_mem_length {α : Type} :
    ∀ (l : List α) (k : Nat) (c : List α), c ∈ combinationsL k l → c.length = k := by
  intro l
  induction l with
  | nil =>
    intro k c hc
    cases k with
    | zero => simp [combinationsL] at hc; simp [hc]
    | succ k => simp [combinationsL] at hc
  | cons x xs ih =>
    intro k c hc
    cases k with
    | zero => simp [combinationsL] at hc; simp [hc]
    | succ k =>
      rw [combinationsL] at hc
      rcases List.mem_append.mp hc with h | h
      · rcases List.mem_map.mp h with ⟨c', hc', rfl⟩
        simp [ih k c' hc']
      · exact ih (k + 1) c h

theorem nodup_of_toFinset_card_eq_length {α : Type} [DecidableEq α]
    {l : List α} (h : l.toFinset.card = l.length) : l.Nodup := by
  have hd := List.card_toFinset l
  rw [hd] at h
  exact List.dedup_eq_self.mp ((List.dedup_sublist l).eq_of_length h)

/-! ### Claim C1 — BestSelector tie-break rule -/

/-- C1 (counterexample): the claim reads line 252 as
"(current-best tmp > 4 OR candidate tmp > 4) AND candidate tmp <
current-best tmp".  Python's `and` binds tighter than `or`, so with the
current best's Tm spread at 5 and the candidate's at 6 the code accepts
even though the claim's condition is false: the hypotheses of the claim
hold (candidate mean strictly smaller, candidate range not below 0.9 ×
best range), `stepAccept` returns `true`, yet the claim's acceptance
condition fails. -/
theorem stepAccept_mixed_precedence_cex :
    bestC1.mean > candC1.mean ∧
    ¬(bestC1.range * (9 / 10) > candC1.range) ∧
    stepAccept bestC1 candC1 = true ∧
    ¬((bestC1.tmp > 4 ∨ candC1.tmp > 4) ∧ candC1.tmp < bestC1.tmp) := by
  refine ⟨by norm_num [bestC1, candC1], by norm_num [bestC1, candC1], ?_,
    by norm_num [bestC1, candC1]⟩
  norm_num [stepAccept, bestC1, candC1]

/-- C1 (amended): in the BestSelector fold, for an incoming score whose
mean is strictly below the current best's and whose range is not below
0.9 × the current best's range, the candidate is accepted exactly when
current-best `tmp` > 4, OR (candidate `tmp` > 4 AND candidate `tmp` <
current-best `tmp`) — `and` binds tighter than `or` at line 252. -/
theorem stepAccept_tmp_rule_iff (best cand : Score)
    (hmean : best.mean > cand.mean)
    (hrange : ¬(best.range * (9 / 10) > cand.range)) :
    stepAccept best cand = true ↔
      (best.tmp > 4 ∨ (cand.tmp > 4 ∧ cand.tmp < best.tmp)) := by
  simp [stepAccept, hmean, hrange]

/-- C1 (witness): the amended rule evaluated at a concrete best/candidate
pair satisfying both hypotheses. -/
theorem stepAccept_tmp_rule_iff_witness :
    stepAccept bestC1 candC1w = true ↔
      (bestC1.tmp > 4 ∨ (candC1w.tmp > 4 ∧ candC1w.tmp < bestC1.tmp)) :=
  stepAccept_tmp_rule_iff bestC1 candC1w (by norm_num [bestC1, candC1w])
    (by norm_num [bestC1, candC1w])

/-! ### Claim C3 — enumeration caps -/

/-- C3: the enumerator examines at most `4 * eval` raw `k`-subsets of
the pool before filtering — the raw stream is a prefix of the full
lexicographic enumeration (third conjunct) of length at most `4 * eval`
(first conjunct) — and at most `eval` filtered valid combinations are
kept for scoring (second conjunct). -/
theorem enumeration_caps (pool : List Candidate) (names : Finset String)
    (k e : Nat) :
    (rawCombinations pool k e).length ≤ 4 * e ∧
    (valid_combinations pool names e).length ≤ e ∧
    rawCombinations pool k e ++ (combinationsL k pool).drop (4 * e) =
      combinationsL k pool := by
  refine ⟨?_, ?_, ?_⟩
  · exact List.length_take_le _ _
  · exact List.length_take_le _ _
  · exact List.take_append_drop _ _

/-! ### Claim C8 — validity filter correctness -/

/-- C8: every combination that passes the validity filter has exactly
`names.card` members, covers the required name set exactly, and no
region name is duplicated inside it. -/
theorem filtered_combinations_cover_names (pool : List Candidate)
    (names : Finset String) (e : Nat) (c : List Candidate)
    (hc : c ∈ filteredCombinations pool names e) :
    c.length = names.card ∧ namesOf c = names ∧
    (c.map fun entry => entry.name).Nodup := by
  have hmem := List.mem_filter.mp hc
  have hnames : namesOf c = names := by
    have h2 := hmem.2
    simpa using h2
  have hraw : c ∈ combinationsL names.card pool := by
    have h1 := hmem.1
    rw [rawCombinations] at h1
    exact List.mem_of_mem_take h1
  have hlen := combinationsL_mem_length pool names.card c hraw
  refine ⟨hlen, hnames, ?_⟩
  apply nodup_of_toFinset_card_eq_length
  have ht : (c.map fun entry => entry.name).toFinset = names := hnames
  rw [ht, List.length_map, hlen]

/-- C8 (witness): with a two-candidate pool covering names `A` and `B`,
the single filtered combination has the claimed shape. -/
theorem filtered_combinations_cover_names_witness :
    ([candA, candB] : List Candidate).length =
      ((["A", "B"] : List String).toFinset).card ∧
    namesOf [candA, candB] = (["A", "B"] : List String).toFinset ∧
    (([candA, candB] : List Candidate).map fun entry => entry.name).Nodup :=
  filtered_combinations_cover_names [candA, candB]
    ((["A", "B"] : List String).toFinset) 1 [candA, candB] (by decide)

/-! ### Region-loop lemmas -/

/-- Loop-level break behaviour, generalised over the `seen` accumulator:
when the first oversized region `r` is reached, the loop emits its
diagnostic and `break`s there — candidate generation has already been
invoked for every region before `r` (`calls = pre`), no region from
`r` on is processed, and the loop itself ends without an uncaught
exception. -/
theorem regionLoop_break_aux
    (gen : Region → Except String (List Candidate)) (maxProd : ℤ)
    (r : Region) (rest pre : List Region) (seen : List String)
    (hr : r.end_ - r.start > maxProd)
    (hspan : ∀ p ∈ pre, p.end_ - p.start ≤ maxProd)
    (hfresh : ∀ p ∈ pre, regionName p ∉ seen)
    (hnodup : (pre.map regionName).Nodup)
    (hgen : ∀ p ∈ pre, ∃ l, gen p = Except.ok l) :
    (regionLoop gen maxProd (pre ++ r :: rest) seen).broke = some r ∧
    (regionLoop gen maxProd (pre ++ r :: rest) seen).calls = pre ∧
    (regionLoop gen maxProd (pre ++ r :: rest) seen).err = none := by
  induction pre generalizing seen with
  | nil =>
    simp only [List.nil_append, regionLoop]
    rw [if_pos hr]
    exact ⟨rfl, rfl, rfl⟩
  | cons p pre ih =>
    obtain ⟨l, hl⟩ := hgen p (List.mem_cons_self p pre)
    have hps : ¬(p.end_ - p.start > maxProd) :=
      not_lt.mpr (hspan p (List.mem_cons_self p pre))
    have hpf : regionName p ∉ seen := hfresh p (List.mem_cons_self p pre)
    have hrec := ih (regionName p :: seen)
      (fun q hq => hspan q (List.mem_cons_of_mem p hq))
      (fun q hq hmem => by
        rcases List.mem_cons.mp hmem with heq | hmem'
        · exact (List.nodup_cons.mp hnodup).1
            (heq ▸ List.mem_map_of_mem regionName hq)
        · exact hfresh q (List.mem_cons_of_mem p hq) hmem')
      (List.nodup_cons.mp hnodup).2
      (fun q hq => hgen q (List.mem_cons_of_mem p hq))
    simp only [List.cons_append, regionLoop]
    rw [if_neg hps, if_neg hpf, hl]
    simpa using ⟨hrec.1, hrec.2.1, hrec.2.2⟩

/-- When no region is oversized, no name collides and the generator
never raises, the loop runs to completion: every region is submitted to
candidate generation and no exception or break occurs. -/
theorem regionLoop_complete
    (gen : Region → Except String (List Candidate)) (maxProd : ℤ)
    (rows : List Region) (seen : List String)
    (hspan : ∀ p ∈ rows, p.end_ - p.start ≤ maxProd)
    (hfresh : ∀ p ∈ rows, regionName p ∉ seen)
    (hnodup : (rows.map regionName).Nodup)
    (hgen : ∀ p ∈ rows, ∃ l, gen p = Except.ok l) :
    (regionLoop gen maxProd rows seen).calls = rows ∧
    (regionLoop gen maxProd rows seen).err = none := by
  induction rows generalizing seen with
  | nil => exact ⟨rfl, rfl⟩
  | cons p pre ih =>
    obtain ⟨l, hl⟩ := hgen p (List.mem_cons_self p pre)
    have hps : ¬(p.end_ - p.start > maxProd) :=
      not_lt.mpr (hspan p (List.mem_cons_self p pre))
    have hpf : regionName p ∉ seen := hfresh p (List.mem_cons_self p pre)
    have hrec := ih (regionName p :: seen)
      (fun q hq => hspan q (List.mem_cons_of_mem p hq))
      (fun q hq hmem => by
        rcases List.mem_cons.mp hmem with heq | hmem'
        · exact (List.nodup_cons.mp hnodup).1
            (heq ▸ List.mem_map_of_mem regionName hq)
        · exact hfresh q (List.mem_cons_of_mem p hq) hmem')
      (List.nodup_cons.mp hnodup).2
      (fun q hq => hgen q (List.mem_cons_of_mem p hq))
    simp only [regionLoop]
    rw [if_neg hps, if_neg hpf, hl]
    simpa using ⟨hrec.1, hrec.2⟩

/-! ### Claim C2 — oversized region -/

/-- A region table whose third region spans 900 bases. -/
def rowsOversize : List Region := [⟨100, 150⟩, ⟨300, 350⟩, ⟨900, 1800⟩]

/-- C2 (counterexample): with `product_size_max = 800` and an oversized
third region, candidate generation has already occurred for the first
two regions (`calls ≠ []`), refuting "no candidate generation occurs
for any region"; and the abort that does end the run is the line-198
`NameError` for the unbound `target_tm` default — which every run
surviving the loop hits — not an abort tied to the offending region
(the region is only named by the printed diagnostic at line 145). -/
theorem region_oversize_cex :
    (⟨900, 1800⟩ : Region) ∈ rowsOversize ∧
    ((1800 : ℤ) - 900 > 800) ∧
    (run genW 800 10 rowsOversize).calls = [⟨100, 150⟩, ⟨300, 350⟩] ∧
    (run genW 800 10 rowsOversize).outcome =
      Outcome.crashed RunError.targetTmUnbound := by
  refine ⟨by decide, by decide, ?_, ?_⟩ <;> rfl

/-- C2 (amended): when a region's span exceeds the maximum product
size, the loop prints a diagnostic naming the first such region and
`break`s there: candidate generation has already been invoked for
every earlier region (`calls = pre`), no region from the oversized one
on is processed, and the loop raises no exception.  The run then
aborts, but not because of the region: module execution continues to
line 198, where the `calculate_score` definition raises `NameError`
for its unbound `target_tm` default. -/
theorem regionLoop_break_at_oversize
    (gen : Region → Except String (List Candidate)) (maxProd : ℤ)
    (e : Nat) (r : Region) (rest pre : List Region)
    (hr : r.end_ - r.start > maxProd)
    (hspan : ∀ p ∈ pre, p.end_ - p.start ≤ maxProd)
    (hnodup : (pre.map regionName).Nodup)
    (hgen : ∀ p ∈ pre, ∃ l, gen p = Except.ok l) :
    (regionLoop gen maxProd (pre ++ r :: rest) []).broke = some r ∧
    (run gen maxProd e (pre ++ r :: rest)).calls = pre ∧
    (run gen maxProd e (pre ++ r :: rest)).outcome =
      Outcome.crashed RunError.targetTmUnbound := by
  obtain ⟨hb, hc, he⟩ := regionLoop_break_aux gen maxProd r rest pre []
    hr hspan (by simp) hnodup hgen
  have hrun : run gen maxProd e (pre ++ r :: rest) =
      ⟨(regionLoop gen maxProd (pre ++ r :: rest) []).calls,
        Outcome.crashed RunError.targetTmUnbound⟩ := by
    simp only [run]
    rw [he]
  exact ⟨hb, by rw [hrun]; exact hc, by rw [hrun]⟩

/-- C2 (witness): the amended behaviour at a concrete table whose
second region is oversized: the loop breaks at it, the first region
was already submitted to generation, and the run dies with the
line-198 `NameError`. -/
theorem regionLoop_break_at_oversize_witness :
    (regionLoop genW 800 ([⟨100, 150⟩] ++ ⟨900, 1800⟩ :: []) []).broke =
      some ⟨900, 1800⟩ ∧
    (run genW 800 10 ([⟨100, 150⟩] ++ ⟨900, 1800⟩ :: [])).calls =
      [⟨100, 150⟩] ∧
    (run genW 800 10 ([⟨100, 150⟩] ++ ⟨900, 1800⟩ :: [])).outcome =
      Outcome.crashed RunError.targetTmUnbound :=
  regionLoop_break_at_oversize genW 800 10 ⟨900, 1800⟩ [] [⟨100, 150⟩]
    (by decide) (by decide) (by simp)
    (fun p hp => ⟨[candA], by rw [List.mem_singleton] at hp; subst hp; rfl⟩)

/-! ### Claim C9 — distinct-name gate -/

/-- C9 (counterexample): a one-region table.  Candidate generation is
performed for the region (`calls` is not empty, contradicting
"performing no candidate generation at all"), and the promised
"not enough targets" exit never happens: the run aborts at line 198
with the `target_tm` `NameError` before the gate at line 223 executes,
so the outcome is not `notEnoughTargets` over the available name. -/
theorem names_gate_after_generation_cex :
    (run genW 800 10 [⟨100, 150⟩]).calls = [⟨100, 150⟩] ∧
    (run genW 800 10 [⟨100, 150⟩]).outcome =
      Outcome.crashed RunError.targetTmUnbound ∧
    (run genW 800 10 [⟨100, 150⟩]).outcome ≠
      Outcome.notEnoughTargets ((["A"] : List String).toFinset) :=
  ⟨rfl, rfl, by decide⟩

/-- C9 (amended): when only one distinct region name would be available
(the hypothesis `_hcard` scopes the statement to the claim's trigger;
the behaviour does not depend on it) and the region loop finishes
without an in-loop exception, the program still never reaches the
`len(names) <= 1` gate: candidate generation has already been
performed for every region of the table (`calls = rows`), and the run
then aborts at the `calculate_score` definition (line 198) with a
`NameError` for the unbound `target_tm` default — before the gate at
lines 223–225 and before any combination enumeration.  The
"not enough targets" diagnostic is dead code. -/
theorem names_gate_unreachable
    (gen : Region → Except String (List Candidate)) (maxProd : ℤ)
    (e : Nat) (rows : List Region)
    (hspan : ∀ p ∈ rows, p.end_ - p.start ≤ maxProd)
    (hnodup : (rows.map regionName).Nodup)
    (hgen : ∀ p ∈ rows, ∃ l, gen p = Except.ok l)
    (_hcard : ((((regionLoop gen maxProd rows []).pools.flatten.map
        fun d => d.name).toFinset).card ≤ 1)) :
    (run gen maxProd e rows).calls = rows ∧
    (run gen maxProd e rows).outcome =
      Outcome.crashed RunError.targetTmUnbound := by
  obtain ⟨hcalls, herr⟩ := regionLoop_complete gen maxProd rows []
    hspan (by simp) hnodup hgen
  have hrun : run gen maxProd e rows =
      ⟨(regionLoop gen maxProd rows []).calls,
        Outcome.crashed RunError.targetTmUnbound⟩ := by
    simp only [run]
    rw [herr]
  exact ⟨by rw [hrun]; exact hcalls, by rw [hrun]⟩

/-- C9 (witness): the amended behaviour on the one-region table. -/
theorem names_gate_unreachable_witness :
    (run genW 800 10 [⟨100, 150⟩]).calls = [⟨100, 150⟩] ∧
    (run genW 800 10 [⟨100, 150⟩]).outcome =
      Outcome.crashed RunError.targetTmUnbound :=
  names_gate_unreachable genW 800 10 [⟨100, 150⟩] (by decide) (by simp)
    (fun p hp => ⟨[candA], by rw [List.mem_singleton] at hp; subst hp; rfl⟩)
    (by decide)

/-! ### Claim C10 — name-collision handling -/

/-- A region table whose two rows derive the same display name
`Target 100-150`. -/
def rowsDup : List Region := [⟨100, 150⟩, ⟨100, 150⟩]

/-- C10 (code_bug): on the first name collision the dedup branch
evaluates `random.randint(1, 100)` (script line 154), but the module
never imports `random`, so the run crashes with a `NameError` instead
of resolving the collision and continuing.  Generation had run for the
first row only. -/
theorem name_collision_crashes :
    (run genW 800 10 rowsDup).outcome =
      Outcome.crashed (RunError.nameCollision (regionName ⟨100, 150⟩)) ∧
    (run genW 800 10 rowsDup).calls = [⟨100, 150⟩] :=
  ⟨rfl, rfl⟩

/-! ### Claim C4 — service-exception policy -/

/-- C4 (counterexample): an exception raised by the
`designPrimers` service call is *not* caught — it escapes
`design_primers` (the call sits outside the `try` block), and a run
whose generator raises crashes instead of continuing with an empty
candidate list for the region. -/
theorem design_primers_error_escapes_cex :
    design_primers (Except.error ("service failure")) ("Target 100-150") =
      Except.error ("service failure") ∧
    (run genErr 800 10 [⟨100, 150⟩]).outcome =
      Outcome.crashed (RunError.genFailure ("service failure")) ∧
    (run genErr 800 10 [⟨100, 150⟩]).calls = [⟨100, 150⟩] :=
  ⟨rfl, rfl, rfl⟩

/-- C4 (amended): an exception from the service call itself propagates
out of `design_primers` unchanged, while a successful service response
never yields an escaping exception — failures during result extraction
are absorbed by the `try`/`except`, returning the pairs extracted so
far (and a zero-pair response returns the empty list). -/
theorem design_primers_exception_policy (svc : Except String P3Result)
    (nm : String) :
    (∀ e, svc = Except.error e → design_primers svc nm = Except.error e) ∧
    (∀ p, svc = Except.ok p → ∃ l, design_primers svc nm = Except.ok l) := by
  constructor
  · intro e he
    subst he
    rfl
  · intro p hp
    subst hp
    cases hn : p.pairNumReturned with
    | none => exact ⟨[], by simp [design_primers, hn]⟩
    | some n =>
      cases n with
      | zero => exact ⟨[], by simp [design_primers, hn]⟩
      | succ m => exact ⟨extractFrom p nm 0 (m + 1), by simp [design_primers, hn]⟩

/-- C4 (witness): the amended policy applied to a concrete erroring
service response. -/
theorem design_primers_exception_policy_witness :
    design_primers (Except.error ("boom")) ("A") = Except.error ("boom") :=
  (design_primers_exception_policy (Except.error ("boom")) ("A")).1 ("boom") rfl

/-! ### Claim C5 — swapped Tm fields -/

theorem extractFrom_mem (p : P3Result) (nm : String) :
    ∀ (rem i : Nat) (c : Candidate), c ∈ extractFrom p nm i rem →
      ∃ j, p.leftSequence j = some c.forwardPrimer ∧
           p.rightSequence j = some c.reversePrimer ∧
           p.rightTm j = some c.forwardTm ∧
           p.leftTm j = some c.reverseTm := by
  intro rem
  induction rem with
  | zero =>
    intro i c hc
    simp [extractFrom] at hc
  | succ rem ih =>
    intro i c hc
    rw [extractFrom] at hc
    split at hc
    · rcases List.mem_cons.mp hc with rfl | hc'
      · rename_i fseq rseq ftm rtm ps h1 h2 h3 h4 h5
        exact ⟨i, h1, h2, h3, h4⟩
      · exact ih (i + 1) c hc'
    · simp at hc

/-- C5: every candidate pair `design_primers` returns carries, at some
service index `j`, the left sequence as its forward primer and the
right sequence as its reverse primer, while its `'Forward tm'` is the
Tm the service reported for the *right* primer and its `'Reverse tm'`
the one reported for the *left* primer (script lines 104–105): the two
Tm values are swapped relative to the sequences in the same record. -/
theorem design_primers_tm_swapped (p : P3Result) (nm : String)
    (l : List Candidate) (hl : design_primers (Except.ok p) nm = Except.ok l)
    (c : Candidate) (hc : c ∈ l) :
    ∃ j, p.leftSequence j = some c.forwardPrimer ∧
         p.rightSequence j = some c.reversePrimer ∧
         p.rightTm j = some c.forwardTm ∧
         p.leftTm j = some c.reverseTm := by
  cases hn : p.pairNumReturned with
  | none =>
    simp [design_primers, hn] at hl
    subst hl
    simp at hc
  | some n =>
    cases n with
    | zero =>
      simp [design_primers, hn] at hl
      subst hl
      simp at hc
    | succ m =>
      simp [design_primers, hn] at hl
      subst hl
      exact extractFrom_mem p nm (m + 1) 0 c hc

/-- A concrete one-pair service response: left sequence `AAAATTTT` with
Tm 60, right sequence `CCCCGGGG` with Tm 70, product size 500. -/
def p3w : P3Result :=
  { pairNumReturned := some 1,
    leftSequence := fun _ => some ("AAAATTTT"),
    rightSequence := fun _ => some ("CCCCGGGG"),
    leftTm := fun _ => some 60,
    rightTm := fun _ => some 70,
    pairProductSize := fun _ => some 500 }

/-- The candidate record `design_primers` builds from `p3w`: note the
forward Tm 70 is the *right* primer's Tm. -/
def candW : Candidate := ⟨"AAAATTTT", "CCCCGGGG", 70, 60, 500, "A"⟩

/-- C5 (witness): the swap exhibited on the concrete response `p3w`. -/
theorem design_primers_tm_swapped_witness :
    ∃ j, p3w.leftSequence j = some candW.forwardPrimer ∧
         p3w.rightSequence j = some candW.reversePrimer ∧
         p3w.rightTm j = some candW.forwardTm ∧
         p3w.leftTm j = some candW.reverseTm :=
  design_primers_tm_swapped p3w ("A") [candW] rfl candW
    (List.mem_singleton.mpr rfl)

/-! ### Claim C6 — pool-wide score fields -/

/-- Shape of any successful `calculate_score` result: all six aggregates
exist and the score is assembled from them. -/
theorem calculate_score_eq_some (dg : String → String → ℚ)
    (pool comb : List Candidate) (s : Score)
    (h : calculate_score dg pool comb = some s) :
    ∃ psMax psMin tmMax tmMin hMin hMax,
      npMax (product_sizes pool) = some psMax ∧
      npMin (product_sizes pool) = some psMin ∧
      npMax (tm_values pool) = some tmMax ∧
      npMin (tm_values pool) = some tmMin ∧
      npMin (hets dg comb) = some hMin ∧
      npMax (hets dg comb) = some hMax ∧
      s = { size := psMax - psMin, tmp := tmMax - tmMin,
            mean := (hets dg comb).sum / ((hets dg comb).length : ℚ),
            range := |hMin| - |hMax| } := by
  unfold calculate_score at h
  split at h
  · rename_i psMax psMin tmMax tmMin hMin hMax h1 h2 h3 h4 h5 h6
    exact ⟨psMax, psMin, tmMax, tmMin, hMin, hMax, h1, h2, h3, h4, h5, h6,
      (Option.some.injEq .. ▸ h).symm⟩
  · exact absurd h (by simp)

/-- C6: two combinations scored against the same pool have identical
`'tmp'` and `'size'` components, both computed as max − min over the
entire pool's Tm values and product sizes respectively, independent of
the combination argument. -/
theorem calculate_score_pool_fields_const (dg : String → String → ℚ)
    (pool c1 c2 : List Candidate) (s1 s2 : Score)
    (h1 : calculate_score dg pool c1 = some s1)
    (h2 : calculate_score dg pool c2 = some s2) :
    s1.tmp = s2.tmp ∧ s1.size = s2.size ∧
    (∃ hi lo, npMax (product_sizes pool) = some hi ∧
      npMin (product_sizes pool) = some lo ∧ s1.size = hi - lo) ∧
    (∃ hi lo, npMax (tm_values pool) = some hi ∧
      npMin (tm_values pool) = some lo ∧ s1.tmp = hi - lo) := by
  obtain ⟨a1, b1, c1', d1, e1, f1, ha1, hb1, hc1, hd1, _, _, rfl⟩ :=
    calculate_score_eq_some dg pool c1 s1 h1
  obtain ⟨a2, b2, c2', d2, e2, f2, ha2, hb2, hc2, hd2, _, _, rfl⟩ :=
    calculate_score_eq_some dg pool c2 s2 h2
  have haa : a1 = a2 := Option.some.inj (ha1.symm.trans ha2)
  have hbb : b1 = b2 := Option.some.inj (hb1.symm.trans hb2)
  have hcc : c1' = c2' := Option.some.inj (hc1.symm.trans hc2)
  have hdd : d1 = d2 := Option.some.inj (hd1.symm.trans hd2)
  subst haa hbb hcc hdd
  exact ⟨rfl, rfl, ⟨a1, b1, ha1, hb1, rfl⟩, ⟨c1', d1, hc1, hd1, rfl⟩⟩

/-- The constant heterodimer-energy function used in witnesses. -/
def dgK : String → String → ℚ := fun _ _ => -7

/-- C6 (witness): two different combinations over the pool
`[candA, candB]` receive the same pool-wide `'tmp'` and `'size'`. -/
theorem calculate_score_pool_fields_const_witness :
    (⟨100, 4, -7, 0⟩ : Score).tmp = (⟨100, 4, -7, 0⟩ : Score).tmp ∧
    (⟨100, 4, -7, 0⟩ : Score).size = (⟨100, 4, -7, 0⟩ : Score).size ∧
    (∃ hi lo, npMax (product_sizes [candA, candB]) = some hi ∧
      npMin (product_sizes [candA, candB]) = some lo ∧
      (⟨100, 4, -7, 0⟩ : Score).size = hi - lo) ∧
    (∃ hi lo, npMax (tm_values [candA, candB]) = some hi ∧
      npMin (tm_values [candA, candB]) = some lo ∧
      (⟨100, 4, -7, 0⟩ : Score).tmp = hi - lo) :=
  calculate_score_pool_fields_const dgK [candA, candB] [candA, candB]
    [candB, candA] ⟨100, 4, -7, 0⟩ ⟨100, 4, -7, 0⟩
    (by norm_num [calculate_score, dgK, candA, candB, npMin, npMax,
      product_sizes, tm_values, hets, pairsOf, min_def, max_def])
    (by norm_num [calculate_score, dgK, candA, candB, npMin, npMax,
      product_sizes, tm_values, hets, pairsOf, min_def, max_def])

/-! ### Claim C7 — mean and range of the heterodimer scores -/

/-- The heterodimer ΔG of the `i`-th candidate's forward primer against
the `j`-th candidate's reverse primer. -/
def pairVal (dg : String → String → ℚ) (l : List Candidate) (i j : Nat) : ℚ :=
  dg (l.getD i default).forwardPrimer (l.getD j default).reversePrimer

/-- Sum of the pairwise ΔG values over all index pairs `i < j` of the
combination (`j` ranges over `Ico (i+1) l.length`, i.e. `i < j <
l.length`). -/
def pairwiseSum (dg : String → String → ℚ) (l : List Candidate) : ℚ :=
  ∑ i ∈ Finset.range l.length, ∑ j ∈ Finset.Ico (i + 1) l.length,
    pairVal dg l i j

theorem sum_map_getD {α : Type} (f : α → ℚ) (d : α) :
    ∀ l : List α, (l.map f).sum = ∑ i ∈ Finset.range l.length, f (l.getD i d) := by
  intro l
  induction l with
  | nil => simp
  | cons x xs ih =>
    rw [List.map_cons, List.sum_cons, List.length_cons, Finset.sum_range_succ']
    simp only [List.getD_cons_succ, List.getD_cons_zero]
    rw [ih]
    ring

theorem hets_cons (dg : String → String → ℚ) (x : Candidate)
    (xs : List Candidate) :
    hets dg (x :: xs) =
      (xs.map fun y => dg x.forwardPrimer y.reversePrimer) ++ hets dg xs := by
  simp [hets, pairsOf, List.map_map, Function.comp]

theorem hets_sum (dg : String → String → ℚ) :
    ∀ l : List Candidate, (hets dg l).sum = pairwiseSum dg l := by
  intro l
  induction l with
  | nil => simp [hets, pairsOf, pairwiseSum]
  | cons x xs ih =>
    rw [hets_cons, List.sum_append, ih]
    symm
    calc pairwiseSum dg (x :: xs)
        = ∑ i ∈ Finset.range (xs.length + 1),
            ∑ j ∈ Finset.Ico (i + 1) (xs.length + 1),
              pairVal dg (x :: xs) i j := by
          simp [pairwiseSum]
      _ = (∑ i ∈ Finset.range xs.length,
            ∑ j ∈ Finset.Ico (i + 1 + 1) (xs.length + 1),
              pairVal dg (x :: xs) (i + 1) j)
          + ∑ j ∈ Finset.Ico (0 + 1) (xs.length + 1),
              pairVal dg (x :: xs) 0 j :=
          Finset.sum_range_succ'
            (fun i => ∑ j ∈ Finset.Ico (i + 1) (xs.length + 1),
              pairVal dg (x :: xs) i j) xs.length
      _ = pairwiseSum dg xs
          + (xs.map fun y => dg x.forwardPrimer y.reversePrimer).sum := by
          congr 1
          · rw [pairwiseSum]
            refine Finset.sum_congr rfl ?_
            intro i _
            rw [Finset.sum_Ico_eq_sum_range, Finset.sum_Ico_eq_sum_range]
            have hlen : xs.length + 1 - (i + 1 + 1) = xs.length - (i + 1) := by
              omega
            rw [hlen]
            refine Finset.sum_congr rfl ?_
            intro t _
            have hidx : i + 1 + 1 + t = i + 1 + t + 1 := by omega
            rw [hidx]
            simp only [pairVal, List.getD_cons_succ]
          · rw [Finset.sum_Ico_eq_sum_range, sum_map_getD _ default]
            have hlen : xs.length + 1 - (0 + 1) = xs.length := by omega
            rw [hlen]
            refine Finset.sum_congr rfl ?_
            intro t _
            have hidx : 0 + 1 + t = t + 1 := by omega
            rw [hidx]
            simp only [pairVal, List.getD_cons_succ, List.getD_cons_zero]
      _ = (xs.map fun y => dg x.forwardPrimer y.reversePrimer).sum
          + pairwiseSum dg xs := by ring

theorem pairsOf_length {α : Type} :
    ∀ l : List α, (pairsOf l).length = l.length.choose 2 := by
  intro l
  induction l with
  | nil => simp [pairsOf]
  | cons x xs ih =>
    simp only [pairsOf, List.length_append, List.length_map, ih,
      List.length_cons]
    rw [Nat.choose_succ_succ, Nat.choose_one_right]

theorem hets_length (dg : String → String → ℚ) (l : List Candidate) :
    (hets dg l).length = l.length.choose 2 := by
  rw [hets, List.length_map, pairsOf_length]

theorem mem_hets (dg : String → String → ℚ) :
    ∀ (l : List Candidate) (q : ℚ),
      q ∈ hets dg l ↔ ∃ i j, i < j ∧ j < l.length ∧ q = pairVal dg l i j := by
  intro l
  induction l with
  | nil =>
    intro q
    simp [hets, pairsOf]
  | cons x xs ih =>
    intro q
    rw [hets_cons, List.mem_append]
    constructor
    · rintro (hq | hq)
      · rcases List.mem_map.mp hq with ⟨y, hy, rfl⟩
        rcases List.mem_iff_getElem.mp hy with ⟨j, hj, rfl⟩
        refine ⟨0, j + 1, Nat.succ_pos j, by simpa using hj, ?_⟩
        simp only [pairVal, List.getD_cons_succ, List.getD_cons_zero,
          List.getD_eq_getElem xs default hj]
      · rcases (ih q).mp hq with ⟨i, j, hij, hjl, rfl⟩
        refine ⟨i + 1, j + 1, by omega, by simpa using hjl, ?_⟩
        simp [pairVal, List.getD_cons_succ]
    · rintro ⟨i, j, hij, hjl, rfl⟩
      cases i with
      | zero =>
        cases j with
        | zero => omega
        | succ j' =>
          left
          have hj' : j' < xs.length := by simpa using hjl
          refine List.mem_map.mpr ⟨xs.getD j' default, ?_, ?_⟩
          · rw [List.getD_eq_getElem xs default hj']
            exact List.getElem_mem hj'
          · simp [pairVal, List.getD_cons_succ, List.getD_cons_zero]
      | succ i' =>
        cases j with
        | zero => omega
        | succ j' =>
          right
          refine (ih _).mpr ⟨i', j', by omega, by simpa using hjl, ?_⟩
          simp [pairVal, List.getD_cons_succ]

theorem foldl_min_mem (xs : List ℚ) : ∀ x : ℚ, xs.foldl min x ∈ x :: xs := by
  induction xs with
  | nil => intro x; simp
  | cons y ys ih =>
    intro x
    rw [List.foldl_cons]
    rcases List.mem_cons.mp (ih (min x y)) with he | hm
    · rcases min_choice x y with hc | hc
      · exact List.mem_cons.mpr (Or.inl (he.trans hc))
      · exact List.mem_cons_of_mem x (List.mem_cons.mpr (Or.inl (he.trans hc)))
    · exact List.mem_cons_of_mem x (List.mem_cons_of_mem y hm)

theorem foldl_min_le (xs : List ℚ) :
    ∀ x : ℚ, xs.foldl min x ≤ x ∧ ∀ b ∈ xs, xs.foldl min x ≤ b := by
  induction xs with
  | nil => intro x; exact ⟨le_refl x, by simp⟩
  | cons y ys ih =>
    intro x
    rw [List.foldl_cons]
    obtain ⟨h1, h2⟩ := ih (min x y)
    refine ⟨h1.trans (min_le_left x y), ?_⟩
    intro b hb
    rcases List.mem_cons.mp hb with rfl | hb'
    · exact h1.trans (min_le_right x b)
    · exact h2 b hb'

theorem foldl_max_mem (xs : List ℚ) : ∀ x : ℚ, xs.foldl max x ∈ x :: xs := by
  induction xs with
  | nil => intro x; simp
  | cons y ys ih =>
    intro x
    rw [List.foldl_cons]
    rcases List.mem_cons.mp (ih (max x y)) with he | hm
    · rcases max_choice x y with hc | hc
      · exact List.mem_cons.mpr (Or.inl (he.trans hc))
      · exact List.mem_cons_of_mem x (List.mem_cons.mpr (Or.inl (he.trans hc)))
    · exact List.mem_cons_of_mem x (List.mem_cons_of_mem y hm)

theorem foldl_max_le (xs : List ℚ) :
    ∀ x : ℚ, x ≤ xs.foldl max x ∧ ∀ b ∈ xs, b ≤ xs.foldl max x := by
  induction xs with
  | nil => intro x; exact ⟨le_refl x, by simp⟩
  | cons y ys ih =>
    intro x
    rw [List.foldl_cons]
    obtain ⟨h1, h2⟩ := ih (max x y)
    refine ⟨(le_max_left x y).trans h1, ?_⟩
    intro b hb
    rcases List.mem_cons.mp hb with rfl | hb'
    · exact (le_max_right x b).trans h1
    · exact h2 b hb'

theorem npMin_spec (l : List ℚ) (m : ℚ) (h : npMin l = some m) :
    m ∈ l ∧ ∀ b ∈ l, m ≤ b := by
  cases l with
  | nil => simp [npMin] at h
  | cons x xs =>
    have hm : m = xs.foldl min x := (Option.some.inj h).symm
    subst hm
    refine ⟨foldl_min_mem xs x, ?_⟩
    intro b hb
    rcases List.mem_cons.mp hb with rfl | hb'
    · exact (foldl_min_le xs b).1
    · exact (foldl_min_le xs x).2 b hb'

theorem npMax_spec (l : List ℚ) (m : ℚ) (h : npMax l = some m) :
    m ∈ l ∧ ∀ b ∈ l, b ≤ m := by
  cases l with
  | nil => simp [npMax] at h
  | cons x xs =>
    have hm : m = xs.foldl max x := (Option.some.inj h).symm
    subst hm
    refine ⟨foldl_max_mem xs x, ?_⟩
    intro b hb
    rcases List.mem_cons.mp hb with rfl | hb'
    · exact (foldl_max_le xs b).1
    · exact (foldl_max_le xs x).2 b hb'

/-- C7: for every successfully scored combination, `'mean'` is the
arithmetic mean of the heterodimer ΔG values over all unordered pairs
of distinct candidates (one ΔG per index pair `i < j`, the forward
sequence of the earlier against the reverse sequence of the later, the
pair count being `choose 2`), and `'range'` is `|min ΔG| − |max ΔG|`
over those same pairwise values. -/
theorem calculate_score_mean_range_spec (dg : String → String → ℚ)
    (pool comb : List Candidate) (s : Score)
    (h : calculate_score dg pool comb = some s) :
    s.mean = pairwiseSum dg comb / ((comb.length.choose 2 : ℕ) : ℚ) ∧
    ∃ m M,
      (∃ i j, i < j ∧ j < comb.length ∧ m = pairVal dg comb i j) ∧
      (∀ i j, i < j → j < comb.length → m ≤ pairVal dg comb i j) ∧
      (∃ i j, i < j ∧ j < comb.length ∧ M = pairVal dg comb i j) ∧
      (∀ i j, i < j → j < comb.length → pairVal dg comb i j ≤ M) ∧
      s.range = |m| - |M| := by
  obtain ⟨psMax, psMin, tmMax, tmMin, hMin, hMax, _, _, _, _, hhm, hhM, rfl⟩ :=
    calculate_score_eq_some dg pool comb s h
  constructor
  · show (hets dg comb).sum / ((hets dg comb).length : ℚ) = _
    rw [hets_sum, hets_length]
  · obtain ⟨hmem, hle⟩ := npMin_spec _ _ hhm
    obtain ⟨hmem', hle'⟩ := npMax_spec _ _ hhM
    refine ⟨hMin, hMax, (mem_hets dg comb hMin).mp hmem, ?_,
      (mem_hets dg comb hMax).mp hmem', ?_, rfl⟩
    · intro i j hij hj
      exact hle _ ((mem_hets dg comb _).mpr ⟨i, j, hij, hj, rfl⟩)
    · intro i j hij hj
      exact hle' _ ((mem_hets dg comb _).mpr ⟨i, j, hij, hj, rfl⟩)

/-- C7 (witness): the mean/range characterisation instantiated on a
concrete scored combination. -/
theorem calculate_score_mean_range_spec_witness :
    (⟨100, 4, -7, 0⟩ : Score).mean =
      pairwiseSum dgK [candA, candB] /
        ((([candA, candB] : List Candidate).length.choose 2 : ℕ) : ℚ) ∧
    ∃ m M,
      (∃ i j, i < j ∧ j < ([candA, candB] : List Candidate).length ∧
        m = pairVal dgK [candA, candB] i j) ∧
      (∀ i j, i < j → j < ([candA, candB] : List Candidate).length →
        m ≤ pairVal dgK [candA, candB] i j) ∧
      (∃ i j, i < j ∧ j < ([candA, candB] : List Candidate).length ∧
        M = pairVal dgK [candA, candB] i j) ∧
      (∀ i j, i < j → j < ([candA, candB] : List Candidate).length →
        pairVal dgK [candA, candB] i j ≤ M) ∧
      (⟨100, 4, -7, 0⟩ : Score).range = |m| - |M| :=
  calculate_score_mean_range_spec dgK [candA, candB] [candA, candB]
    ⟨100, 4, -7, 0⟩
    (by norm_num [calculate_score, dgK, candA, candB, npMin, npMax,
      product_sizes, tm_values, hets, pairsOf, min_def, max_def])
